import Mathlib

/-!
Verification of the course-catalog program in `EWFinalProject.cpp`.

The program stores course records in a hash table keyed by course number,
loads them from a comma-delimited text file, validates that every
prerequisite is itself a course, and offers search and sorted-listing
queries.  The embedding below models:

* the tokenizer (`std::getline(ss, token, ',')` loop) as `getlineSplit`;
* `std::unordered_map` as an association list with `hashAssign`
  (insert-or-overwrite, `operator[]=`) and `htFind` (`find`);
* `loadCoursesToHashTable` over an optional list of input lines
  (`none` models a file that cannot be opened); the second component of
  each result collects the diagnostic (stderr) lines;
* `validateHashTable`, `searchCourseInHashTable` and `PrintAllCourses`
  with their stdout/stderr lines as explicit list-of-string results;
  `std::sort` is modelled by `List.insertionSort`, whose contract
  (sorted permutation) is exactly the contract of `std::sort`.
-/

namespace EWFinal

/-- A course record: number, title and prerequisite course numbers
(struct `Course`, source lines 23-27).  The `Inhabited` default is the
value produced by the default constructor: empty strings, empty list. -/
structure Course where
  number : String
  title : String
  prerequisites : List String
deriving DecidableEq, Repr, Inhabited

/-- `typedef std::unordered_map<std::string, Course> HashTable` modelled
as an association list; list order models iteration order. -/
abbrev HashTable := List (String × Course)

/-- The tokenizing loop `while (std::getline(ss, token, ','))`
(source lines 55-57): each successful `getline` consumes up to and
including the next comma (or the rest of the stream) and yields the
consumed characters; on an exhausted stream `getline` fails and the
loop stops, so no token is produced for an empty remainder. -/
def getlineSplit : List Char → List (List Char)
  | [] => []
  | c :: cs =>
    if c = ',' then [] :: getlineSplit cs
    else
      match getlineSplit cs with
      | [] => [[c]]
      | t :: ts => (c :: t) :: ts

/-- Tokens of one input line, as strings. -/
def lineTokens (s : String) : List String :=
  (getlineSplit s.data).map String.mk

/-- `coursesHashTable[courseNumber] = course` (source line 75):
overwrite the entry of an existing key in place, otherwise append. -/
def hashAssign : HashTable → String → Course → HashTable
  | [], k, v => [(k, v)]
  | (k0, v0) :: rest, k, v =>
    if k0 = k then (k, v) :: rest else (k0, v0) :: hashAssign rest k v

/-- `coursesHashTable.find(courseNumber)` (source line 119). -/
def htFind : HashTable → String → Option Course
  | [], _ => none
  | (k0, v0) :: rest, k => if k0 = k then some v0 else htFind rest k

/-- Processing of one input line (source lines 50-76): tokenize; if
fewer than 2 tokens, report a diagnostic and leave the table unchanged;
otherwise build the course from tokens 0, 1 and the rest, and assign it
under the key given by token 0. -/
def loadLine (m : HashTable) (line : String) : HashTable × List String :=
  match lineTokens line with
  | t0 :: t1 :: rest => (hashAssign m t0 ⟨t0, t1, rest⟩, [])
  | _ => (m, ["Error: Line has less than 2 parameters."])

/-- The line-reading loop of `loadCoursesToHashTable`; the second
component is the accumulated stderr output. -/
def loadLines : HashTable → List String → HashTable × List String
  | m, [] => (m, [])
  | m, line :: ls =>
    let step := loadLine m line
    let rest := loadLines step.1 ls
    (rest.1, step.2 ++ rest.2)

/-- `loadCoursesToHashTable` (source lines 37-82).  `none` models a file
that cannot be opened: a diagnostic is printed and an empty table is
returned; `some lines` models a readable file with the given lines. -/
def loadCoursesToHashTable : Option (List String) → HashTable × List String
  | none => ([], ["Error: Unable to open file."])
  | some lines => loadLines [] lines

/-- The key-collection loop of `validateHashTable` (source lines 92-96):
the set of course numbers, membership being what `unordered_set::find`
decides. -/
def courseNumbersOf (m : HashTable) : List String :=
  m.map Prod.fst

/-- The inner loop of `validateHashTable` (source lines 101-106): the
first prerequisite of one course that is not a known course number. -/
def checkPrereqs (keys : List String) : List String → Option String
  | [] => none
  | p :: ps => if p ∈ keys then checkPrereqs keys ps else some p

/-- The outer loop of `validateHashTable` (source lines 99-107): the
first violating prerequisite over the courses in iteration order. -/
def firstViolation (keys : List String) : HashTable → Option String
  | [] => none
  | (_, c) :: rest =>
    match checkPrereqs keys c.prerequisites with
    | some p => some p
    | none => firstViolation keys rest

/-- `validateHashTable` (source lines 91-110): the returned Bool and the
stderr lines (the early return prints exactly one diagnostic). -/
def validateHashTable (m : HashTable) : Bool × List String :=
  match firstViolation (courseNumbersOf m) m with
  | some p => (false, ["Error: Prerequisite " ++ p ++ " does not exist as a course."])
  | none => (true, [])

/-- The prerequisite printing loop of `searchCourseInHashTable` (source
lines 130-132): each prerequisite followed by a space. -/
def joinPrereqs (ps : List String) : String :=
  String.join (ps.map (fun p => p ++ " "))

/-- `searchCourseInHashTable` (source lines 118-138): stdout lines and
stderr lines. -/
def searchCourseInHashTable (m : HashTable) (courseNumber : String) :
    List String × List String :=
  match htFind m courseNumber with
  | some course =>
    (["Course Number: " ++ course.number,
      "Course Title: " ++ course.title,
      "Prerequisites: " ++
        (if course.prerequisites.isEmpty then "None"
         else joinPrereqs course.prerequisites)],
     [])
  | none => ([], ["Error: Course " ++ courseNumber ++ " not found."])

/-- Lexicographic comparison of character sequences by code point: the
comparison performed by `operator<` on `std::string`, in the
less-or-equal form used below to sort. -/
def charListLeb : List Char → List Char → Bool
  | [], _ => true
  | _ :: _, [] => false
  | a :: as, b :: bs =>
    if a.toNat < b.toNat then true
    else if b.toNat < a.toNat then false
    else charListLeb as bs

/-- The `std::string` ordering on whole strings, as a relation. -/
def strLe (a b : String) : Prop := charListLeb a.data b.data = true

instance (a b : String) : Decidable (strLe a b) :=
  instDecidableEqBool (charListLeb a.data b.data) true

/-- `PrintAllCourses` (source lines 145-162): collect the keys, sort
them (`std::sort` with `std::string` ordering, modelled by insertion
sort: the contract of both is delivering a sorted permutation), then
print the header line followed by one `number: title` line per key, the
record being fetched with `operator[]` (default-constructed when
absent, which cannot happen for keys of the table). -/
def PrintAllCourses (m : HashTable) : List String :=
  let courseNumbers := List.insertionSort strLe (courseNumbersOf m)
  "Courses in the Computer Science department:" ::
    courseNumbers.map (fun k =>
      let course := (htFind m k).getD default
      course.number ++ ": " ++ course.title)

/-- Full comma-split of a character list, keeping all empty fields (one
field more than delimiters).  This is a specification-side description
used to characterize `getlineSplit`; it is not part of the program. -/
def fullSplit : List Char → List (List Char)
  | [] => [[]]
  | c :: cs =>
    if c = ',' then [] :: fullSplit cs
    else
      match fullSplit cs with
      | [] => [[c]]
      | t :: ts => (c :: t) :: ts

/-- String-level view of `fullSplit`, specification-side. -/
def commaFields (s : String) : List String :=
  (fullSplit s.data).map String.mk

/-- Joining comma-free fields with the comma delimiter,
specification-side inverse of the tokenizer. -/
def joinComma : List (List Char) → List Char
  | [] => []
  | t :: ts =>
    match ts with
    | [] => t
    | _ :: _ => t ++ ',' :: joinComma ts

/-- Identifiers (first tokens) of the well-formed lines of a file. -/
def wfIds (ls : List String) : List String :=
  (ls.filter (fun l => decide (2 ≤ (lineTokens l).length))).map
    (fun l => (lineTokens l).headD "")

/-- The well-formed lines of a file whose identifier is `id`. -/
def matchingLines (ls : List String) (id : String) : List String :=
  ls.filter (fun l =>
    decide (2 ≤ (lineTokens l).length ∧ (lineTokens l).headD "" = id))

/-- The course record a well-formed line parses to. -/
def courseOfLine (l : String) : Course :=
  match lineTokens l with
  | t0 :: t1 :: rest => ⟨t0, t1, rest⟩
  | _ => default

/-- Specification-side trimming of leading and trailing whitespace,
used to state what a parser producing trimmed tokens would do. -/
def strTrim (s : String) : String :=
  ⟨((s.data.dropWhile Char.isWhitespace).reverse.dropWhile
      Char.isWhitespace).reverse⟩

example : lineTokens "A,B," = ["A", "B"] := by decide
example : lineTokens "A,," = ["A", ""] := by decide
example : lineTokens "" = [] := by decide
example : lineTokens ",B" = ["", "B"] := by decide
example : (loadCoursesToHashTable (some ["A,X", "A,Y"])).1 =
    [("A", ⟨"A", "Y", []⟩)] := by decide

/-! ### Order properties of the string comparison -/

theorem uint32_toNat_inj {x y : UInt32} (h : x.toNat = y.toNat) : x = y := by
  cases x; cases y
  simp only [UInt32.toNat] at h
  congr 1
  exact BitVec.eq_of_toNat_eq h

theorem char_toNat_inj {x y : Char} (h : x.toNat = y.toNat) : x = y :=
  Char.ext (uint32_toNat_inj h)

theorem charListLeb_total : ∀ a b, charListLeb a b = true ∨ charListLeb b a = true
  | [], _ => Or.inl rfl
  | _ :: _, [] => Or.inr rfl
  | a :: as, b :: bs => by
    simp only [charListLeb]
    rcases Nat.lt_trichotomy a.toNat b.toNat with h | h | h
    · left; simp [h]
    · have h1 : ¬ a.toNat < b.toNat := by omega
      have h2 : ¬ b.toNat < a.toNat := by omega
      rcases charListLeb_total as bs with ih | ih
      · left; simp [h1, h2, ih]
      · right; simp [h1, h2, ih]
    · right; simp [h]

theorem charListLeb_trans :
    ∀ a b c, charListLeb a b = true → charListLeb b c = true →
      charListLeb a c = true
  | [], _, _, _, _ => rfl
  | _ :: _, [], _, h1, _ => by simp [charListLeb] at h1
  | _ :: _, _ :: _, [], _, h2 => by simp [charListLeb] at h2
  | x :: as, y :: bs, z :: cs, h1, h2 => by
    simp only [charListLeb] at h1 h2 ⊢
    by_cases hxy : x.toNat < y.toNat <;> by_cases hyz : y.toNat < z.toNat
    · have hxz : x.toNat < z.toNat := by omega
      simp [hxz]
    · by_cases hzy : z.toNat < y.toNat
      · simp [hyz, hzy] at h2
      · have hxz : x.toNat < z.toNat := by omega
        simp [hxz]
    · by_cases hyx : y.toNat < x.toNat
      · simp [hxy, hyx] at h1
      · have hxz : x.toNat < z.toNat := by omega
        simp [hxz]
    · by_cases hyx : y.toNat < x.toNat
      · simp [hxy, hyx] at h1
      · by_cases hzy : z.toNat < y.toNat
        · simp [hyz, hzy] at h2
        · have h1a : charListLeb as bs = true := by simpa [hxy, hyx] using h1
          have h2a : charListLeb bs cs = true := by simpa [hyz, hzy] using h2
          have hxz : ¬ x.toNat < z.toNat := by omega
          have hzx : ¬ z.toNat < x.toNat := by omega
          simpa [hxz, hzx] using charListLeb_trans as bs cs h1a h2a

theorem charListLeb_antisymm :
    ∀ a b, charListLeb a b = true → charListLeb b a = true → a = b
  | [], [], _, _ => rfl
  | [], _ :: _, _, h2 => by simp [charListLeb] at h2
  | _ :: _, [], h1, _ => by simp [charListLeb] at h1
  | x :: as, y :: bs, h1, h2 => by
    simp only [charListLeb] at h1 h2
    by_cases hxy : x.toNat < y.toNat
    · have hyx : ¬ y.toNat < x.toNat := by omega
      simp [hyx, hxy] at h2
    · by_cases hyx : y.toNat < x.toNat
      · simp [hxy, hyx] at h1
      · have hxyeq : x = y := char_toNat_inj (by omega)
        have h1a : charListLeb as bs = true := by simpa [hxy, hyx] using h1
        have h2a : charListLeb bs as = true := by simpa [hxy, hyx] using h2
        rw [hxyeq, charListLeb_antisymm as bs h1a h2a]

instance : IsTotal String strLe :=
  ⟨fun a b => charListLeb_total a.data b.data⟩

instance : IsTrans String strLe :=
  ⟨fun a b c => charListLeb_trans a.data b.data c.data⟩

instance : IsAntisymm String strLe :=
  ⟨fun a b h1 h2 => by
    have := charListLeb_antisymm a.data b.data h1 h2
    cases a; cases b
    exact congrArg String.mk this⟩

/-! ### Tokenizer lemmas -/

theorem getlineSplit_cons (c : Char) (cs : List Char) :
    getlineSplit (c :: cs) =
      if c = ',' then [] :: getlineSplit cs
      else
        match getlineSplit cs with
        | [] => [[c]]
        | t :: ts => (c :: t) :: ts := rfl

theorem fullSplit_cons (c : Char) (cs : List Char) :
    fullSplit (c :: cs) =
      if c = ',' then [] :: fullSplit cs
      else
        match fullSplit cs with
        | [] => [[c]]
        | t :: ts => (c :: t) :: ts := rfl

theorem getlineSplit_ne_nil (c : Char) (cs : List Char) :
    getlineSplit (c :: cs) ≠ [] := by
  rw [getlineSplit_cons]
  by_cases h : c = ','
  · simp [h]
  · simp only [if_neg h]
    cases hg : getlineSplit cs <;> simp

theorem fullSplit_ne_nil : ∀ l : List Char, fullSplit l ≠ []
  | [] => by simp [fullSplit]
  | c :: cs => by
    rw [fullSplit_cons]
    by_cases h : c = ','
    · simp [h]
    · simp only [if_neg h]
      cases hg : fullSplit cs <;> simp

theorem getlineSplit_append_comma :
    ∀ l : List Char, getlineSplit (l ++ [',']) = fullSplit l
  | [] => by simp [getlineSplit, fullSplit]
  | c :: cs => by
    rw [List.cons_append, getlineSplit_cons, fullSplit_cons,
      getlineSplit_append_comma cs]

theorem getlineSplit_of_no_comma :
    ∀ t : List Char, t ≠ [] → ',' ∉ t → getlineSplit t = [t]
  | [], h, _ => absurd rfl h
  | [c], _, hc => by
    have h1 : ¬ c = ',' := fun h => hc (by simp [h])
    rw [getlineSplit_cons, if_neg h1]
    rfl
  | c :: d :: ds, _, hc => by
    have h1 : ¬ c = ',' := fun h => hc (by simp [h])
    have h2 : ',' ∉ d :: ds := fun h => hc (List.mem_cons_of_mem _ h)
    have ih := getlineSplit_of_no_comma (d :: ds) (by simp) h2
    rw [getlineSplit_cons, if_neg h1, ih]

theorem getlineSplit_append_cons :
    ∀ t r : List Char, ',' ∉ t →
      getlineSplit (t ++ ',' :: r) = t :: getlineSplit r
  | [], r, _ => by
    rw [List.nil_append, getlineSplit_cons, if_pos rfl]
  | c :: cs, r, hc => by
    have h1 : ¬ c = ',' := fun h => hc (by simp [h])
    have h2 : ',' ∉ cs := fun h => hc (List.mem_cons_of_mem _ h)
    have ih := getlineSplit_append_cons cs r h2
    rw [List.cons_append, getlineSplit_cons, if_neg h1, ih]

theorem getlineSplit_joinComma :
    ∀ ls : List (List Char), (∀ t ∈ ls, ',' ∉ t) →
      ∀ last, ls.getLast? = some last → last ≠ [] →
        getlineSplit (joinComma ls) = ls
  | [], _, _, h, _ => by simp at h
  | [t], hc, last, h, hne => by
    have ht : last = t := by simpa using h.symm
    show getlineSplit t = [t]
    exact getlineSplit_of_no_comma t (ht ▸ hne) (hc t (by simp))
  | t :: t2 :: ts, hc, last, h, hne => by
    have h1 : ',' ∉ t := hc t (by simp)
    have h2 : ∀ u ∈ t2 :: ts, ',' ∉ u :=
      fun u hu => hc u (List.mem_cons_of_mem _ hu)
    have h3 : (t2 :: ts).getLast? = some last := by
      simpa [List.getLast?_cons_cons] using h
    have ih := getlineSplit_joinComma (t2 :: ts) h2 last h3 hne
    show getlineSplit (t ++ ',' :: joinComma (t2 :: ts)) = t :: t2 :: ts
    rw [getlineSplit_append_cons _ _ h1, ih]

/-! ### Hash table lemmas -/

theorem htFind_hashAssign (m : HashTable) (k : String) (v : Course)
    (q : String) :
    htFind (hashAssign m k v) q = if k = q then some v else htFind m q := by
  induction m with
  | nil => simp [hashAssign, htFind]
  | cons p rest ih =>
    obtain ⟨k0, v0⟩ := p
    simp only [hashAssign]
    by_cases h0 : k0 = k
    · subst h0
      by_cases hq : k0 = q
      · subst hq; simp [htFind]
      · simp [htFind, hq]
    · simp only [if_neg h0, htFind]
      by_cases hq : k0 = q
      · subst hq
        have hkq : ¬ k = k0 := fun h => h0 h.symm
        simp [hkq]
      · simp [hq, ih]

theorem mem_keys_hashAssign (m : HashTable) (k : String) (v : Course)
    (q : String) :
    q ∈ courseNumbersOf (hashAssign m k v) ↔
      q = k ∨ q ∈ courseNumbersOf m := by
  induction m with
  | nil => simp [hashAssign, courseNumbersOf]
  | cons p rest ih =>
    obtain ⟨k0, v0⟩ := p
    simp only [hashAssign]
    by_cases h0 : k0 = k
    · subst h0; simp [courseNumbersOf]
    · simp only [if_neg h0, courseNumbersOf, List.map_cons, List.mem_cons]
      simp only [courseNumbersOf] at ih
      rw [ih]
      tauto

theorem nodup_keys_hashAssign (m : HashTable) (k : String) (v : Course)
    (h : (courseNumbersOf m).Nodup) :
    (courseNumbersOf (hashAssign m k v)).Nodup := by
  induction m with
  | nil => simp [hashAssign, courseNumbersOf]
  | cons p rest ih =>
    obtain ⟨k0, v0⟩ := p
    simp only [courseNumbersOf, List.map_cons, List.nodup_cons] at h
    by_cases h0 : k0 = k
    · subst h0
      have e : hashAssign ((k0, v0) :: rest) k0 v = (k0, v) :: rest := by
        simp [hashAssign]
      rw [e]
      simp only [courseNumbersOf, List.map_cons, List.nodup_cons]
      exact h
    · have e : hashAssign ((k0, v0) :: rest) k v =
          (k0, v0) :: hashAssign rest k v := by
        simp [hashAssign, h0]
      rw [e]
      simp only [courseNumbersOf, List.map_cons, List.nodup_cons]
      constructor
      · intro hmem
        rcases (mem_keys_hashAssign rest k v k0).1 hmem with h1 | h1
        · exact h0 h1
        · exact h.1 h1
      · exact ih h.2

theorem htFind_eq_none_iff (m : HashTable) (q : String) :
    htFind m q = none ↔ q ∉ courseNumbersOf m := by
  induction m with
  | nil => simp [htFind, courseNumbersOf]
  | cons p rest ih =>
    obtain ⟨k0, v0⟩ := p
    simp only [htFind, courseNumbersOf, List.map_cons, List.mem_cons]
    by_cases h0 : k0 = q
    · subst h0; simp
    · have : ¬ q = k0 := fun h => h0 h.symm
      simp only [courseNumbersOf] at ih
      simp [h0, this, ih]

theorem mem_of_htFind_eq_some (m : HashTable) (q : String) (c : Course)
    (h : htFind m q = some c) : (q, c) ∈ m := by
  induction m with
  | nil => simp [htFind] at h
  | cons p rest ih =>
    obtain ⟨k0, v0⟩ := p
    simp only [htFind] at h
    by_cases h0 : k0 = q
    · subst h0
      simp only [if_pos rfl] at h
      cases h
      exact List.mem_cons_self _ _
    · simp only [if_neg h0] at h
      exact List.mem_cons_of_mem _ (ih h)

theorem htFind_eq_some_of_mem (m : HashTable) (q : String) (c : Course)
    (hnd : (courseNumbersOf m).Nodup) (hm : (q, c) ∈ m) :
    htFind m q = some c := by
  induction m with
  | nil => simp at hm
  | cons p rest ih =>
    obtain ⟨k0, v0⟩ := p
    simp only [courseNumbersOf, List.map_cons, List.nodup_cons] at hnd
    rcases List.mem_cons.1 hm with h1 | h1
    · obtain ⟨hq, hc⟩ := Prod.mk.injEq .. ▸ h1
      simp [htFind, hq.symm, hc]
    · have hq : ¬ k0 = q := by
        intro h
        subst h
        exact hnd.1 (List.mem_map.2 ⟨(k0, c), h1, rfl⟩)
      simp only [htFind, if_neg hq]
      exact ih hnd.2 h1

/-! ### Load loop lemmas -/

theorem loadLine_wf (m : HashTable) (l : String) (t0 t1 : String)
    (rest : List String) (ht : lineTokens l = t0 :: t1 :: rest) :
    loadLine m l = (hashAssign m t0 ⟨t0, t1, rest⟩, []) := by
  simp [loadLine, ht]

theorem loadLine_malformed (m : HashTable) (l : String)
    (ht : (lineTokens l).length < 2) :
    loadLine m l = (m, ["Error: Line has less than 2 parameters."]) := by
  rcases h : lineTokens l with _ | ⟨a, _ | ⟨b, r⟩⟩
  · simp [loadLine, h]
  · simp [loadLine, h]
  · rw [h] at ht
    simp at ht
    omega

theorem loadLines_nil (m : HashTable) : loadLines m [] = (m, []) := rfl

theorem loadLines_cons (m : HashTable) (l : String) (ls : List String) :
    loadLines m (l :: ls) =
      ((loadLines (loadLine m l).1 ls).1,
       (loadLine m l).2 ++ (loadLines (loadLine m l).1 ls).2) := rfl

theorem loadLines_fst_append (m : HashTable) (xs ys : List String) :
    (loadLines m (xs ++ ys)).1 = (loadLines (loadLines m xs).1 ys).1 := by
  induction xs generalizing m with
  | nil => rfl
  | cons l ls ih =>
    rw [List.cons_append, loadLines_cons, loadLines_cons]
    exact ih (loadLine m l).1

theorem loadLines_snd (m : HashTable) (ls : List String) :
    (loadLines m ls).2 =
      (ls.filter (fun l => decide ((lineTokens l).length < 2))).map
        (fun _ => "Error: Line has less than 2 parameters.") := by
  induction ls generalizing m with
  | nil => rfl
  | cons l ls ih =>
    rw [loadLines_cons]
    rcases h : lineTokens l with _ | ⟨a, _ | ⟨b, r⟩⟩
    · rw [loadLine_malformed m l (by simp [h])]
      simp [List.filter_cons, h, ih]
    · rw [loadLine_malformed m l (by simp [h])]
      simp [List.filter_cons, h, ih]
    · rw [loadLine_wf m l a b r h]
      simp [List.filter_cons, h, ih]

theorem keys_hashAssign_toFinset (m : HashTable) (k : String) (v : Course) :
    (courseNumbersOf (hashAssign m k v)).toFinset =
      insert k (courseNumbersOf m).toFinset := by
  ext q
  simp [mem_keys_hashAssign]

theorem keys_loadLines_toFinset :
    ∀ (ls : List String) (m : HashTable),
      (courseNumbersOf (loadLines m ls).1).toFinset =
        (courseNumbersOf m).toFinset ∪ (wfIds ls).toFinset
  | [], m => by simp [loadLines_nil, wfIds]
  | l :: ls, m => by
    rw [loadLines_cons]
    rcases h : lineTokens l with _ | ⟨a, _ | ⟨b, r⟩⟩
    · rw [loadLine_malformed m l (by simp [h])]
      rw [keys_loadLines_toFinset ls m]
      simp [wfIds, List.filter_cons, h]
    · rw [loadLine_malformed m l (by simp [h])]
      rw [keys_loadLines_toFinset ls m]
      simp [wfIds, List.filter_cons, h]
    · rw [loadLine_wf m l a b r h]
      rw [keys_loadLines_toFinset ls (hashAssign m a ⟨a, b, r⟩)]
      rw [keys_hashAssign_toFinset]
      have hw : wfIds (l :: ls) = a :: wfIds ls := by
        simp [wfIds, List.filter_cons, h]
      rw [hw]
      simp only [List.toFinset_cons]
      rw [Finset.insert_union, Finset.union_insert]

theorem nodup_keys_loadLines :
    ∀ (ls : List String) (m : HashTable),
      (courseNumbersOf m).Nodup → (courseNumbersOf (loadLines m ls).1).Nodup
  | [], m, h => h
  | l :: ls, m, h => by
    rw [loadLines_cons]
    rcases ht : lineTokens l with _ | ⟨a, _ | ⟨b, r⟩⟩
    · rw [loadLine_malformed m l (by simp [ht])]
      exact nodup_keys_loadLines ls m h
    · rw [loadLine_malformed m l (by simp [ht])]
      exact nodup_keys_loadLines ls m h
    · rw [loadLine_wf m l a b r ht]
      exact nodup_keys_loadLines ls _ (nodup_keys_hashAssign m a _ h)

/-! ### Last write wins -/

theorem matchingLines_nil (id : String) : matchingLines [] id = [] := rfl

theorem getLast?_cons_ne_nil {α : Type} (a : α) (l : List α) (h : l ≠ []) :
    (a :: l).getLast? = l.getLast? := by
  cases l with
  | nil => exact absurd rfl h
  | cons b t => exact List.getLast?_cons_cons ..

theorem htFind_loadLines :
    ∀ (ls : List String) (m : HashTable) (id : String),
      htFind (loadLines m ls).1 id =
        match (matchingLines ls id).getLast? with
        | some l => some (courseOfLine l)
        | none => htFind m id
  | [], m, id => rfl
  | l :: ls, m, id => by
    rw [loadLines_cons]
    rcases ht : lineTokens l with _ | ⟨a, _ | ⟨b, r⟩⟩
    · rw [loadLine_malformed m l (by simp [ht])]
      have hm : matchingLines (l :: ls) id = matchingLines ls id := by
        simp [matchingLines, List.filter_cons, ht]
      rw [hm]
      exact htFind_loadLines ls m id
    · rw [loadLine_malformed m l (by simp [ht])]
      have hm : matchingLines (l :: ls) id = matchingLines ls id := by
        simp [matchingLines, List.filter_cons, ht]
      rw [hm]
      exact htFind_loadLines ls m id
    · rw [loadLine_wf m l a b r ht]
      by_cases ha : a = id
      · subst ha
        have hm : matchingLines (l :: ls) a = l :: matchingLines ls a := by
          simp [matchingLines, List.filter_cons, ht]
        rw [hm]
        have ih := htFind_loadLines ls (hashAssign m a ⟨a, b, r⟩) a
        rcases hms : (matchingLines ls a).getLast? with _ | l2
        · have hnil : matchingLines ls a = [] :=
            List.getLast?_eq_none_iff.1 hms
          rw [hnil]
          simp only [List.getLast?_singleton]
          rw [ih, hms]
          simp only [htFind_hashAssign, if_pos rfl]
          simp [courseOfLine, ht]
        · have hne : matchingLines ls a ≠ [] := by
            intro hh
            rw [hh] at hms
            simp at hms
          rw [getLast?_cons_ne_nil l _ hne, hms]
          rw [ih, hms]
      · have hm : matchingLines (l :: ls) id = matchingLines ls id := by
          simp [matchingLines, List.filter_cons, ht, ha]
        rw [hm]
        have ih := htFind_loadLines ls (hashAssign m a ⟨a, b, r⟩) id
        rw [ih]
        rcases hms : (matchingLines ls id).getLast? with _ | l2
        · simp only [htFind_hashAssign, if_neg ha]
        · rfl

/-! ### Validator lemmas -/

theorem checkPrereqs_cons (keys : List String) (p : String)
    (ps : List String) :
    checkPrereqs keys (p :: ps) =
      if p ∈ keys then checkPrereqs keys ps else some p := rfl

theorem checkPrereqs_eq_none_iff (keys : List String) :
    ∀ ps, checkPrereqs keys ps = none ↔ ∀ p ∈ ps, p ∈ keys
  | [] => by simp [checkPrereqs]
  | p :: ps => by
    rw [checkPrereqs_cons]
    by_cases h : p ∈ keys
    · rw [if_pos h, checkPrereqs_eq_none_iff keys ps]
      simp [h]
    · rw [if_neg h]
      simp [h]

theorem checkPrereqs_eq_some (keys : List String) :
    ∀ ps p, checkPrereqs keys ps = some p → p ∈ ps ∧ p ∉ keys
  | [], p, h => by simp [checkPrereqs] at h
  | q :: ps, p, h => by
    rw [checkPrereqs_cons] at h
    by_cases hq : q ∈ keys
    · rw [if_pos hq] at h
      have ih := checkPrereqs_eq_some keys ps p h
      exact ⟨List.mem_cons_of_mem _ ih.1, ih.2⟩
    · rw [if_neg hq] at h
      cases h
      exact ⟨List.mem_cons_self _ _, hq⟩

theorem checkPrereqs_first (keys : List String) :
    ∀ (ps1 : List String) (p : String) (ps2 : List String),
      (∀ q ∈ ps1, q ∈ keys) → p ∉ keys →
        checkPrereqs keys (ps1 ++ p :: ps2) = some p
  | [], p, ps2, _, hp => by
    rw [List.nil_append, checkPrereqs_cons, if_neg hp]
  | q :: ps1, p, ps2, hq, hp => by
    rw [List.cons_append, checkPrereqs_cons,
      if_pos (hq q (List.mem_cons_self _ _))]
    exact checkPrereqs_first keys ps1 p ps2
      (fun x hx => hq x (List.mem_cons_of_mem _ hx)) hp

theorem firstViolation_cons (keys : List String) (k : String) (c : Course)
    (rest : HashTable) :
    firstViolation keys ((k, c) :: rest) =
      match checkPrereqs keys c.prerequisites with
      | some p => some p
      | none => firstViolation keys rest := rfl

theorem firstViolation_eq_none_iff (keys : List String) :
    ∀ m : HashTable, firstViolation keys m = none ↔
      ∀ kc ∈ m, ∀ p ∈ (kc : String × Course).2.prerequisites, p ∈ keys
  | [] => by simp [firstViolation]
  | (k, c) :: rest => by
    rw [firstViolation_cons]
    rcases hc : checkPrereqs keys c.prerequisites with _ | p
    · have h1 := (checkPrereqs_eq_none_iff keys c.prerequisites).1 hc
      rw [firstViolation_eq_none_iff keys rest]
      constructor
      · intro h kc hkc
        rcases List.mem_cons.1 hkc with h2 | h2
        · subst h2; exact h1
        · exact h kc h2
      · intro h kc hkc
        exact h kc (List.mem_cons_of_mem _ hkc)
    · obtain ⟨hp, hnk⟩ := checkPrereqs_eq_some keys _ p hc
      constructor
      · intro h; cases h
      · intro h
        exact (hnk (h (k, c) (List.mem_cons_self _ _) p hp)).elim

theorem firstViolation_first (keys : List String) :
    ∀ (pre : HashTable) (k : String) (c : Course) (post : HashTable)
      (p : String),
      (∀ kc ∈ pre, ∀ q ∈ (kc : String × Course).2.prerequisites, q ∈ keys) →
      checkPrereqs keys c.prerequisites = some p →
      firstViolation keys (pre ++ (k, c) :: post) = some p
  | [], k, c, post, p, _, hc => by
    rw [List.nil_append, firstViolation_cons, hc]
  | (k0, c0) :: pre, k, c, post, p, hpre, hc => by
    rw [List.cons_append, firstViolation_cons]
    have h0 : checkPrereqs keys c0.prerequisites = none :=
      (checkPrereqs_eq_none_iff keys c0.prerequisites).2
        (hpre (k0, c0) (List.mem_cons_self _ _))
    rw [h0]
    exact firstViolation_first keys pre k c post p
      (fun kc hkc => hpre kc (List.mem_cons_of_mem _ hkc)) hc

/-! ### Sorted listing lemmas -/

theorem map_fst_find_eq_self :
    ∀ m : HashTable, (courseNumbersOf m).Nodup →
      (courseNumbersOf m).map (fun k => (k, (htFind m k).getD default)) = m
  | [], _ => rfl
  | (k, c) :: rest, hnd => by
    have hnd2 : (k :: courseNumbersOf rest).Nodup := hnd
    obtain ⟨hk, hrest⟩ := List.nodup_cons.1 hnd2
    have e : courseNumbersOf ((k, c) :: rest) = k :: courseNumbersOf rest :=
      rfl
    rw [e, List.map_cons]
    congr 1
    · simp [htFind]
    · have hcong : ∀ q ∈ courseNumbersOf rest,
          (q, (htFind ((k, c) :: rest) q).getD default) =
            (q, (htFind rest q).getD default) := by
        intro q hq
        have hkq : ¬ k = q := fun h => hk (h ▸ hq)
        simp [htFind, hkq]
      rw [List.map_congr_left hcong]
      exact map_fst_find_eq_self rest hrest

theorem htFind_perm (m m' : HashTable) (hperm : m.Perm m')
    (hnd : (courseNumbersOf m).Nodup) (k : String) :
    htFind m k = htFind m' k := by
  have hpk : (courseNumbersOf m).Perm (courseNumbersOf m') :=
    hperm.map Prod.fst
  have hnd' : (courseNumbersOf m').Nodup := hpk.nodup_iff.1 hnd
  rcases h : htFind m k with _ | c
  · rcases h' : htFind m' k with _ | c'
    · rfl
    · have hmem := hperm.mem_iff.2 (mem_of_htFind_eq_some m' k c' h')
      have := htFind_eq_some_of_mem m k c' hnd hmem
      rw [h] at this
      cases this
  · have hmem := hperm.mem_iff.1 (mem_of_htFind_eq_some m k c h)
    exact (htFind_eq_some_of_mem m' k c hnd' hmem).symm

theorem printAllCourses_eq (m : HashTable) :
    PrintAllCourses m = "Courses in the Computer Science department:" ::
      (List.insertionSort strLe (courseNumbersOf m)).map
        (fun k =>
          ((htFind m k).getD default).number ++ ": " ++
            ((htFind m k).getD default).title) := rfl

/-! ### Claim theorems -/

theorem validateHashTable_eq (m : HashTable) :
    validateHashTable m =
      match firstViolation (courseNumbersOf m) m with
      | some p =>
        (false, ["Error: Prerequisite " ++ p ++ " does not exist as a course."])
      | none => (true, []) := rfl

/-- C1: `validateHashTable` returns true iff every prerequisite
identifier of every course in the catalog is itself a key of the
catalog; when some prerequisite is absent, it returns false at the
first violation in iteration order (all earlier courses and all earlier
prerequisites of the offending course being valid), reporting exactly
that violation and checking no further courses. -/
theorem validateHashTable_correct (m : HashTable) :
    ((validateHashTable m).1 = true ↔
      ∀ kc ∈ m, ∀ p ∈ (kc : String × Course).2.prerequisites,
        p ∈ courseNumbersOf m) ∧
    (∀ (pre : HashTable) (k : String) (c : Course) (post : HashTable)
        (ps1 : List String) (p : String) (ps2 : List String),
      m = pre ++ (k, c) :: post →
      (∀ kc ∈ pre, ∀ q ∈ (kc : String × Course).2.prerequisites,
        q ∈ courseNumbersOf m) →
      c.prerequisites = ps1 ++ p :: ps2 →
      (∀ q ∈ ps1, q ∈ courseNumbersOf m) →
      p ∉ courseNumbersOf m →
      validateHashTable m =
        (false,
         ["Error: Prerequisite " ++ p ++ " does not exist as a course."])) := by
  constructor
  · rcases hf : firstViolation (courseNumbersOf m) m with _ | p
    · rw [validateHashTable_eq, hf]
      simp only [true_iff]
      exact (firstViolation_eq_none_iff _ m).1 hf
    · rw [validateHashTable_eq, hf]
      constructor
      · intro h; cases h
      · intro h
        have := (firstViolation_eq_none_iff _ m).2 h
        rw [hf] at this
        cases this
  · intro pre k c post ps1 p ps2 hm hpre hps hps1 hp
    have hc : checkPrereqs (courseNumbersOf m) c.prerequisites = some p := by
      rw [hps]
      exact checkPrereqs_first _ ps1 p ps2 hps1 hp
    have hf : firstViolation (courseNumbersOf m) m = some p := by
      have := firstViolation_first (courseNumbersOf m) pre k c post p hpre hc
      rw [← hm] at this
      exact this
    rw [validateHashTable_eq, hf]

/-- C1 witness: a one-course catalog whose only prerequisite names an
absent course makes validation fail with that exact diagnostic. -/
theorem validateHashTable_correct_witness :
    validateHashTable [("A", ⟨"A", "T", ["B"]⟩)] =
      (false,
       ["Error: Prerequisite " ++ "B" ++ " does not exist as a course."]) :=
  (validateHashTable_correct [("A", ⟨"A", "T", ["B"]⟩)]).2
    [] "A" ⟨"A", "T", ["B"]⟩ [] [] "B" []
    rfl (by simp) rfl (by simp) (by decide)

/-- C2 counterexample: two well-formed lines sharing the identifier `A`
produce one record, not two, so the record count does not equal the
count of lines with at least 2 fields. -/
theorem load_count_duplicate_counterexample :
    ¬ ((loadCoursesToHashTable (some ["A,X", "A,Y"])).1.length =
        (["A,X", "A,Y"].filter
          (fun l => decide (2 ≤ (lineTokens l).length))).length) := by
  decide

/-- C2 (amended): the number of records in the catalog returned by load
equals the number of DISTINCT identifiers among the input lines with at
least 2 comma-separated fields; lines with fewer fields are excluded. -/
theorem load_count_distinct_identifiers (lines : List String) :
    (loadCoursesToHashTable (some lines)).1.length =
      (wfIds lines).toFinset.card := by
  have h1 : (courseNumbersOf (loadLines [] lines).1).toFinset =
      (wfIds lines).toFinset := by
    rw [keys_loadLines_toFinset lines []]
    simp [courseNumbersOf]
  have h2 : (courseNumbersOf (loadLines [] lines).1).Nodup :=
    nodup_keys_loadLines lines [] (by simp [courseNumbersOf])
  have h3 := List.toFinset_card_of_nodup h2
  have h4 : (courseNumbersOf (loadLines [] lines).1).length =
      (loadLines [] lines).1.length := List.length_map _ _
  show (loadLines [] lines).1.length = _
  rw [← h4, ← h3, h1]

/-- C3: when the file contains several lines with the same identifier,
the record stored under that identifier is the one parsed from the LAST
such line, and the only diagnostics of the whole load are the
malformed-line messages, so no error is raised for a duplicate. -/
theorem load_last_write_wins (lines : List String) (id : String)
    (l : String) (h : (matchingLines lines id).getLast? = some l) :
    htFind (loadCoursesToHashTable (some lines)).1 id =
      some (courseOfLine l) ∧
    (loadCoursesToHashTable (some lines)).2 =
      (lines.filter (fun x => decide ((lineTokens x).length < 2))).map
        (fun _ => "Error: Line has less than 2 parameters.") := by
  constructor
  · have hfind := htFind_loadLines lines [] id
    show htFind (loadLines [] lines).1 id = _
    rw [hfind, h]
  · exact loadLines_snd [] lines

/-- C3 witness: two lines with identifier `A`; the stored record comes
from the second line and the load emits no diagnostic. -/
theorem load_last_write_wins_witness :
    htFind (loadCoursesToHashTable (some ["A,X", "A,Y"])).1 "A" =
      some (courseOfLine "A,Y") ∧
    (loadCoursesToHashTable (some ["A,X", "A,Y"])).2 =
      ((["A,X", "A,Y"]).filter
        (fun x => decide ((lineTokens x).length < 2))).map
        (fun _ => "Error: Line has less than 2 parameters.") :=
  load_last_write_wins ["A,X", "A,Y"] "A" "A,Y" (by decide)

/-- C5: when the source cannot be opened, load reports a diagnostic and
returns an empty catalog, and that catalog is indistinguishable from
the catalog obtained by loading an empty file. -/
theorem load_open_failure_empty_catalog :
    loadCoursesToHashTable none = ([], ["Error: Unable to open file."]) ∧
    (loadCoursesToHashTable none).1 =
      (loadCoursesToHashTable (some [])).1 :=
  ⟨rfl, rfl⟩

/-- C6: for an identifier present in the catalog (with distinct keys,
as every loaded catalog has), search emits the stored number, the
exactly stored title, and the stored prerequisite sequence in stored
order, space-joined, with `None` replacing an empty sequence; for an
identifier absent from the catalog it reports a not-found condition. -/
theorem search_found_and_not_found (m : HashTable)
    (hnd : (courseNumbersOf m).Nodup) :
    (∀ k c, (k, c) ∈ m →
      searchCourseInHashTable m k =
        (["Course Number: " ++ c.number,
          "Course Title: " ++ c.title,
          "Prerequisites: " ++
            (if c.prerequisites.isEmpty then "None"
             else joinPrereqs c.prerequisites)], [])) ∧
    (∀ k, k ∉ courseNumbersOf m →
      searchCourseInHashTable m k =
        ([], ["Error: Course " ++ k ++ " not found."])) := by
  constructor
  · intro k c hm
    have h := htFind_eq_some_of_mem m k c hnd hm
    simp [searchCourseInHashTable, h]
  · intro k hk
    have h := (htFind_eq_none_iff m k).2 hk
    simp [searchCourseInHashTable, h]

/-- C6 witness: a found course with no prerequisites and a missing
course, on a concrete catalog. -/
theorem search_found_and_not_found_witness :
    searchCourseInHashTable [("A", ⟨"A", "T", []⟩)] "A" =
      (["Course Number: " ++ "A", "Course Title: " ++ "T",
        "Prerequisites: " ++ "None"], []) ∧
    searchCourseInHashTable [("A", ⟨"A", "T", []⟩)] "Z" =
      ([], ["Error: Course " ++ "Z" ++ " not found."]) := by
  constructor
  · have h := (search_found_and_not_found [("A", ⟨"A", "T", []⟩)]
      (by decide)).1 "A" ⟨"A", "T", []⟩ (by decide)
    simpa using h
  · exact (search_found_and_not_found [("A", ⟨"A", "T", []⟩)]
      (by decide)).2 "Z" (by decide)

/-- C7 counterexample: the line `" A ,B"` is split into the raw tokens
`" A "` and `"B"`; the first is not equal to its trimmed form, so the
parser does not produce trimmed tokens. -/
theorem tokens_not_trimmed_counterexample :
    lineTokens " A ,B" = [" A ", "B"] ∧ strTrim " A " ≠ " A " := by
  decide

/-- C7 (amended): the parser splits each line at the comma delimiter
into an ordered sequence of raw (untrimmed) tokens — re-splitting
comma-free fields joined by the delimiter recovers exactly those fields
— and a line yielding fewer than 2 tokens is rejected, leaving the
catalog unchanged, adding exactly one diagnostic, and the load
continues with the remaining lines. -/
theorem parser_splits_and_rejects_short_lines
    (toks : List (List Char)) (tlast : List Char)
    (pre post : List String) (line : String)
    (hc : ∀ t ∈ toks, ',' ∉ t)
    (hlast : toks.getLast? = some tlast) (hne : tlast ≠ [])
    (hshort : (lineTokens line).length < 2) :
    getlineSplit (joinComma toks) = toks ∧
    (loadCoursesToHashTable (some (pre ++ line :: post))).1 =
      (loadCoursesToHashTable (some (pre ++ post))).1 ∧
    (loadCoursesToHashTable (some (pre ++ line :: post))).2.length =
      (loadCoursesToHashTable (some (pre ++ post))).2.length + 1 := by
  refine ⟨getlineSplit_joinComma toks hc tlast hlast hne, ?_, ?_⟩
  · show (loadLines [] (pre ++ line :: post)).1 =
      (loadLines [] (pre ++ post)).1
    rw [loadLines_fst_append, loadLines_fst_append, loadLines_cons,
      loadLine_malformed _ line hshort]
  · have hdec : decide ((lineTokens line).length < 2) = true :=
      decide_eq_true hshort
    show (loadLines [] (pre ++ line :: post)).2.length =
      (loadLines [] (pre ++ post)).2.length + 1
    rw [loadLines_snd, loadLines_snd]
    simp only [List.filter_append, List.filter_cons, hdec, if_true,
      List.map_append, List.length_append, List.map_cons, List.length_cons]
    omega

/-- C7 witness: fields `A` and `B` survive a join-and-split round trip,
and the malformed line `X` between two well-formed lines is skipped
with one diagnostic. -/
theorem parser_splits_and_rejects_short_lines_witness :
    getlineSplit (joinComma [['A'], ['B']]) = [['A'], ['B']] ∧
    (loadCoursesToHashTable (some (["A,T"] ++ "X" :: ["B,U"]))).1 =
      (loadCoursesToHashTable (some (["A,T"] ++ ["B,U"]))).1 ∧
    (loadCoursesToHashTable (some (["A,T"] ++ "X" :: ["B,U"]))).2.length =
      (loadCoursesToHashTable (some (["A,T"] ++ ["B,U"]))).2.length + 1 :=
  parser_splits_and_rejects_short_lines [['A'], ['B']] ['B']
    ["A,T"] ["B,U"] "X" (by decide) (by decide) (by decide) (by decide)

/-- C9: loading the same source twice yields catalogs with identical
key sets and identical record contents; in this pure model the result
of a load depends only on the lines of the source. -/
theorem load_deterministic (lines1 lines2 : List String)
    (h : lines1 = lines2) :
    (courseNumbersOf (loadCoursesToHashTable (some lines1)).1).toFinset =
      (courseNumbersOf (loadCoursesToHashTable (some lines2)).1).toFinset ∧
    ∀ k, htFind (loadCoursesToHashTable (some lines1)).1 k =
      htFind (loadCoursesToHashTable (some lines2)).1 k := by
  subst h
  exact ⟨rfl, fun _ => rfl⟩

/-- C9 witness: two loads of the same one-line source agree. -/
theorem load_deterministic_witness :
    (courseNumbersOf (loadCoursesToHashTable (some ["A,B"])).1).toFinset =
      (courseNumbersOf (loadCoursesToHashTable (some ["A,B"])).1).toFinset ∧
    ∀ k, htFind (loadCoursesToHashTable (some ["A,B"])).1 k =
      htFind (loadCoursesToHashTable (some ["A,B"])).1 k :=
  load_deterministic ["A,B"] ["A,B"] rfl

/-- C10 counterexample: the line `"A,B,,"` ends in the delimiter, yet
its token list is `["A", "B", ""]`, whose last token is the empty
token — so it is not the case that every line ending in the delimiter
yields no trailing empty token. -/
theorem trailing_empty_token_counterexample :
    "A,B,,".data.getLast? = some ',' ∧
    lineTokens "A,B,," = ["A", "B", ""] ∧
    (lineTokens "A,B,,").getLast? = some "" := by
  decide

/-- C10 (amended): exactly one trailing empty field is dropped: the
tokens of `s ++ ","` are the FULL comma-split fields of `s` (so only
the empty field after the final delimiter disappears); in particular
`"A,B,"` loads a course with an empty prerequisite list and `"A,"`
yields one token and is rejected as malformed. -/
theorem trailing_delimiter_drops_one_field :
    (∀ s : String, lineTokens (s ++ ",") = commaFields s) ∧
    htFind (loadCoursesToHashTable (some ["A,B,"])).1 "A" =
      some ⟨"A", "B", []⟩ ∧
    loadCoursesToHashTable (some ["A,"]) =
      ([], ["Error: Line has less than 2 parameters."]) := by
  refine ⟨?_, by decide, by decide⟩
  intro s
  show (getlineSplit (s ++ ",").data).map String.mk =
    (fullSplit s.data).map String.mk
  have hd : (s ++ ",").data = s.data ++ [','] := by simp
  rw [hd, getlineSplit_append_comma]

/-- C4: for every catalog with distinct keys whose records carry their
key as number (as every loaded catalog does), the listing consists of
the header line followed by exactly one line `identifier: title` per
stored course, the identifiers appearing in ascending lexicographic
(code point) order; and the output is the same for any permutation of
the stored entries, i.e. for any insertion order. -/
theorem printAllCourses_sorted (m : HashTable)
    (hnd : (courseNumbersOf m).Nodup)
    (hkn : ∀ p ∈ m, (p : String × Course).2.number = p.1) :
    (∃ l : HashTable, l.Perm m ∧ (l.map Prod.fst).Pairwise strLe ∧
      PrintAllCourses m = "Courses in the Computer Science department:" ::
        l.map (fun p => p.1 ++ ": " ++ p.2.title)) ∧
    (∀ m' : HashTable, m.Perm m' → PrintAllCourses m' = PrintAllCourses m) := by
  constructor
  · refine ⟨(List.insertionSort strLe (courseNumbersOf m)).map
      (fun k => (k, (htFind m k).getD default)), ?_, ?_, ?_⟩
    · have hp := (List.perm_insertionSort strLe (courseNumbersOf m)).map
        (fun k => (k, (htFind m k).getD default))
      rw [map_fst_find_eq_self m hnd] at hp
      exact hp
    · have hfst : ((List.insertionSort strLe (courseNumbersOf m)).map
          (fun k => (k, (htFind m k).getD default))).map Prod.fst =
          List.insertionSort strLe (courseNumbersOf m) := by
        rw [List.map_map]
        exact List.map_id' _
      rw [hfst]
      exact List.sorted_insertionSort strLe (courseNumbersOf m)
    · rw [printAllCourses_eq m, List.map_map]
      congr 1
      apply List.map_congr_left
      intro k hk
      have hk2 : k ∈ courseNumbersOf m :=
        (List.perm_insertionSort strLe (courseNumbersOf m)).mem_iff.1 hk
      rcases hfind : htFind m k with _ | c
      · exact ((htFind_eq_none_iff m k).1 hfind hk2).elim
      · have hnum : c.number = k := hkn (k, c) (mem_of_htFind_eq_some m k c hfind)
        simp [hfind, hnum]
  · intro m' hperm
    have hpk : (courseNumbersOf m).Perm (courseNumbersOf m') :=
      hperm.map Prod.fst
    have hsorteq : List.insertionSort strLe (courseNumbersOf m') =
        List.insertionSort strLe (courseNumbersOf m) := by
      have hs1 : (List.insertionSort strLe (courseNumbersOf m')).Sorted strLe :=
        List.sorted_insertionSort strLe _
      have hs2 : (List.insertionSort strLe (courseNumbersOf m)).Sorted strLe :=
        List.sorted_insertionSort strLe _
      have hp12 : (List.insertionSort strLe (courseNumbersOf m')).Perm
          (List.insertionSort strLe (courseNumbersOf m)) :=
        (List.perm_insertionSort strLe _).trans
          (hpk.symm.trans (List.perm_insertionSort strLe _).symm)
      exact List.eq_of_perm_of_sorted hp12 hs1 hs2
    rw [printAllCourses_eq m, printAllCourses_eq m', hsorteq]
    congr 1
    apply List.map_congr_left
    intro k hk
    rw [htFind_perm m m' hperm hnd k]

/-- C4 witness: reversing the insertion order of a two-course catalog
leaves the listing unchanged. -/
theorem printAllCourses_sorted_witness :
    PrintAllCourses [("B", ⟨"B", "T2", []⟩), ("A", ⟨"A", "T1", []⟩)] =
      PrintAllCourses [("A", ⟨"A", "T1", []⟩), ("B", ⟨"B", "T2", []⟩)] :=
  (printAllCourses_sorted [("A", ⟨"A", "T1", []⟩), ("B", ⟨"B", "T2", []⟩)]
      (by decide) (by decide)).2
    [("B", ⟨"B", "T2", []⟩), ("A", ⟨"A", "T1", []⟩)]
    (List.Perm.swap (("B", ⟨"B", "T2", []⟩) : String × Course)
      (("A", ⟨"A", "T1", []⟩) : String × Course) [])

/-- C8 counterexample: the file whose single line begins with the
delimiter stores the empty string as a key. -/
theorem empty_identifier_counterexample :
    "" ∈ courseNumbersOf (loadCoursesToHashTable (some [",B"])).1 := by
  decide

theorem first_token_ne_empty (l : String)
    (hhead : l.data.head? ≠ some ',') (t0 : String) (rest : List String)
    (htok : lineTokens l = t0 :: rest) : t0 ≠ "" := by
  obtain ⟨data⟩ := l
  cases data with
  | nil =>
    rw [show lineTokens ⟨[]⟩ = [] from rfl] at htok
    cases htok
  | cons c cs =>
    have hc : ¬ c = ',' := by
      intro h
      exact hhead (by simp [h])
    have he : lineTokens ⟨c :: cs⟩ =
        (getlineSplit (c :: cs)).map String.mk := rfl
    rw [he, getlineSplit_cons, if_neg hc] at htok
    rcases hg : getlineSplit cs with _ | ⟨t, ts⟩ <;> rw [hg] at htok <;>
      simp only [List.map_cons, List.map_nil, List.cons.injEq] at htok
    · intro hemp
      rw [← htok.1] at hemp
      have := congrArg String.data hemp
      simp at this
    · intro hemp
      rw [← htok.1] at hemp
      have := congrArg String.data hemp
      simp at this

/-- C8 (amended): after loading any file in which no line begins with
the delimiter, every identifier stored as a key of the catalog is
non-empty (a line beginning with the delimiter stores an empty
identifier, as the counterexample shows). -/
theorem keys_nonempty_of_no_leading_delimiter (lines : List String)
    (h : ∀ l ∈ lines, l.data.head? ≠ some ',') :
    ∀ k ∈ courseNumbersOf (loadCoursesToHashTable (some lines)).1,
      k ≠ "" := by
  intro k hk
  have h1 : k ∈ (courseNumbersOf (loadLines [] lines).1).toFinset :=
    List.mem_toFinset.2 hk
  rw [keys_loadLines_toFinset lines []] at h1
  have h2 : k ∈ wfIds lines := by
    have : k ∈ (wfIds lines).toFinset := by
      simpa [courseNumbersOf] using h1
    exact List.mem_toFinset.1 this
  obtain ⟨l, hl, hkl⟩ := List.mem_map.1 h2
  have hl2 := List.mem_filter.1 hl
  have hlen : 2 ≤ (lineTokens l).length := by simpa using hl2.2
  rcases htok : lineTokens l with _ | ⟨t0, rest⟩
  · rw [htok] at hlen
    simp at hlen
  · have hk0 : k = t0 := by
      rw [htok] at hkl
      simpa using hkl.symm
    rw [hk0]
    exact first_token_ne_empty l (h l hl2.1) t0 rest htok

/-- C8 witness: in the catalog loaded from a file without
delimiter-leading lines, the stored key `A` is not the empty string. -/
theorem keys_nonempty_of_no_leading_delimiter_witness :
    (("A" : String) = "") = False :=
  eq_false
    (keys_nonempty_of_no_leading_delimiter ["A,B"] (by decide) "A" (by decide))

end EWFinal
